import Mathlib

/-!
Verification of the xatu-dashboard data pipeline (samcm/xatu-dashboard).

Shallow embedding of the three core layers of the repository:

* the cache-aware single-day fetcher `load_xatu_data` (src/utils.py),
* the date-range assembler `load_xatu_data_range` (src/utils.py),
* the preprocessing/aggregation engine `preprocess_data`
  (src/dashboards/block_arrival/data_processing.py) and the per-entity CDF
  construction in
  src/dashboards/block_arrival/sections/client_analysis.py.

Machine-level details that do not affect the verified properties are
abstracted: parquet bytes are an arbitrary type with a `parse` function,
datasets are Lean lists, Python floats are modelled as rationals, and dates
are modelled as day ordinals (natural numbers).
-/

/- ## Part 1: the single-day fetcher `load_xatu_data` (src/utils.py) -/

/-- Outcome of one call of `load_xatu_data` for one fixed
`(network, table, date)` key: the returned dataset (`none` models the Python
`None`, i.e. the Absent outcome), the cache entry for this key after the
call, and the number of remote GET requests issued during the call. -/
structure FetchOut (Bytes α : Type) where
  result : Option (List α)
  cache : Option Bytes
  gets : ℕ
  deriving DecidableEq

/-- Response of the single remote `requests.get` in `load_xatu_data`
(src/utils.py line 70): a 2xx response delivering `content`, an HTTP 404, a
different HTTP error status, or a network-level exception. -/
inductive RemoteResp (Bytes : Type) where
  | ok (content : Bytes)
  | notFound
  | httpErr
  | netErr
  deriving DecidableEq

/-- Cache-check phase of `load_xatu_data` (src/utils.py lines 51-62) for one
fixed key.  `parse b = none` models `pl.read_parquet` raising an exception,
`parse b = some rows` a successful read.  `Sum.inl df` models the early
`return df` on a successful non-empty cached read; `Sum.inr c` models
falling through to the download with `c` the state of the cache entry at
that moment.  Faithful to the source: the entry is unlinked (set to `none`)
only in the exception branch (line 62); after an empty read the code merely
continues to the download and the entry stays in place (line 58). -/
def cacheCheck {Bytes α : Type} (parse : Bytes → Option (List α))
    (cache : Option Bytes) (useCache : Bool) : List α ⊕ Option Bytes :=
  match useCache, cache with
  | true, some b =>
    match parse b with
    | some df => if df.isEmpty then Sum.inr (some b) else Sum.inl df
    | none => Sum.inr none
  | _, _ => Sum.inr cache

/-- Download phase of `load_xatu_data` (src/utils.py lines 64-104): a single
GET is issued.  On 2xx the body is written to the cache file before parsing
(lines 74-75); a parse exception unlinks the cache file and yields `None`
(lines 90-93); an empty parsed frame yields `None` with the written file
kept (lines 87-89); a 404, another HTTP error, or a network exception yield
`None` leaving the cache state `c0` untouched (lines 95-104, the exception
is raised before the cache write). -/
def downloadPhase {Bytes α : Type} (parse : Bytes → Option (List α))
    (remote : RemoteResp Bytes) (c0 : Option Bytes) : FetchOut Bytes α :=
  match remote with
  | .ok content =>
    match parse content with
    | some df =>
      if df.isEmpty then ⟨none, some content, 1⟩ else ⟨some df, some content, 1⟩
    | none => ⟨none, none, 1⟩
  | .notFound => ⟨none, c0, 1⟩
  | .httpErr => ⟨none, c0, 1⟩
  | .netErr => ⟨none, c0, 1⟩

/-- The function `load_xatu_data` (src/utils.py lines 38-104) for one fixed
`(network, table, date)` key: `cache` is the local cache entry for that key
and `remote` the (deterministic) remote state of the partition URL. -/
def loadXatu {Bytes α : Type} (parse : Bytes → Option (List α))
    (remote : RemoteResp Bytes) (cache : Option Bytes) (useCache : Bool) :
    FetchOut Bytes α :=
  match cacheCheck parse cache useCache with
  | Sum.inl df => ⟨some df, cache, 0⟩
  | Sum.inr c0 => downloadPhase parse remote c0

theorem downloadPhase_gets {Bytes α : Type} (parse : Bytes → Option (List α))
    (remote : RemoteResp Bytes) (c0 : Option Bytes) :
    (downloadPhase parse remote c0).gets = 1 := by
  cases remote with
  | ok content =>
    cases hp : parse content with
    | none => simp [downloadPhase, hp]
    | some df =>
      by_cases he : df.isEmpty <;> simp [downloadPhase, hp, he]
  | notFound => rfl
  | httpErr => rfl
  | netErr => rfl

theorem downloadPhase_result_congr {Bytes α : Type}
    (parse : Bytes → Option (List α)) (remote : RemoteResp Bytes)
    (c0 c1 : Option Bytes) :
    (downloadPhase parse remote c0).result = (downloadPhase parse remote c1).result := by
  cases remote with
  | ok content =>
    cases hp : parse content with
    | none => simp [downloadPhase, hp]
    | some df =>
      by_cases he : df.isEmpty <;> simp [downloadPhase, hp, he]
  | notFound => rfl
  | httpErr => rfl
  | netErr => rfl

theorem downloadPhase_success {Bytes α : Type} (parse : Bytes → Option (List α))
    (remote : RemoteResp Bytes) (c0 : Option Bytes) (df : List α)
    (h : (downloadPhase parse remote c0).result = some df) :
    ∃ b, (downloadPhase parse remote c0).cache = some b ∧
      parse b = some df ∧ df.isEmpty = false := by
  cases remote with
  | ok content =>
    cases hp : parse content with
    | none => simp [downloadPhase, hp] at h
    | some d =>
      by_cases he : d.isEmpty
      · simp [downloadPhase, hp, he] at h
      · simp only [downloadPhase, hp, he, if_false, Bool.not_eq_true] at h ⊢
        cases h
        exact ⟨content, rfl, hp, Bool.not_eq_true _ ▸ by simpa using he⟩
  | notFound => simp [downloadPhase] at h
  | httpErr => simp [downloadPhase] at h
  | netErr => simp [downloadPhase] at h

/-- If the cache check falls through with state `c0`, then a second cache
check on `c0` also falls through (the state left behind by a failed call
never turns into a successful cache hit by itself). -/
theorem cacheCheck_fallthrough_again {Bytes α : Type}
    (parse : Bytes → Option (List α)) (cache c0 : Option Bytes)
    (h : cacheCheck parse cache true = Sum.inr c0) :
    ∃ c1, cacheCheck parse c0 true = Sum.inr c1 := by
  cases cache with
  | none =>
    simp only [cacheCheck, Sum.inr.injEq] at h
    subst h
    exact ⟨none, rfl⟩
  | some b =>
    cases hp : parse b with
    | none =>
      simp only [cacheCheck, hp, Sum.inr.injEq] at h
      subst h
      exact ⟨none, rfl⟩
    | some d =>
      by_cases he : d.isEmpty
      · simp only [cacheCheck, hp, he, if_true, Sum.inr.injEq] at h
        subst h
        exact ⟨some b, by simp [cacheCheck, hp, he]⟩
      · simp [cacheCheck, hp, he] at h

/-- A dataset returned by `load_xatu_data` is never empty (both the cache
hit and the successful download return only non-empty frames). -/
theorem loadXatu_result_nonempty {Bytes α : Type}
    (parse : Bytes → Option (List α)) (remote : RemoteResp Bytes)
    (cache : Option Bytes) (useCache : Bool) (df : List α)
    (h : (loadXatu parse remote cache useCache).result = some df) : df ≠ [] := by
  cases hc : cacheCheck parse cache useCache with
  | inl d =>
    have hd : d = df := by simpa [loadXatu, hc] using h
    subst hd
    cases useCache with
    | false => simp [cacheCheck] at hc
    | true =>
      cases cache with
      | none => simp [cacheCheck] at hc
      | some b =>
        cases hp : parse b with
        | none => simp [cacheCheck, hp] at hc
        | some d2 =>
          by_cases he : d2.isEmpty
          · simp [cacheCheck, hp, he] at hc
          · have hd2 : d2 = d := by simpa [cacheCheck, hp, he] using hc
            subst hd2
            simpa [List.isEmpty_iff] using he
  | inr c0 =>
    have h' : (downloadPhase parse remote c0).result = some df := by
      simpa [loadXatu, hc] using h
    obtain ⟨b, _, _, hne⟩ := downloadPhase_success parse remote c0 df h'
    simp only [List.isEmpty_eq_false] at hne
    exact hne

/-- C2 (amended), main theorem.  With a deterministic remote, the second of
two consecutive `load_xatu_data` calls with `use_cache=True` for the same
key always returns the same result as the first; and whenever the first
call returns a dataset (the success case), the two calls together perform
at most one remote GET, the second call performing none.  When the first
call returns Absent (404, other HTTP/network failure, undecodable or empty
data) the second call performs its own remote GET, so the overall total can
be two — see the counterexample. -/
theorem C2_cache_idempotent {Bytes α : Type} (parse : Bytes → Option (List α))
    (remote : RemoteResp Bytes) (cache : Option Bytes) :
    (loadXatu parse remote (loadXatu parse remote cache true).cache true).result
        = (loadXatu parse remote cache true).result ∧
    (∀ df, (loadXatu parse remote cache true).result = some df →
      (loadXatu parse remote (loadXatu parse remote cache true).cache true).gets = 0 ∧
      (loadXatu parse remote cache true).gets
        + (loadXatu parse remote (loadXatu parse remote cache true).cache true).gets ≤ 1) := by
  have hmain : ∀ df, (loadXatu parse remote cache true).result = some df →
      loadXatu parse remote (loadXatu parse remote cache true).cache true
        = ⟨some df, (loadXatu parse remote cache true).cache, 0⟩ := by
    intro df h
    have hcc : ∃ b, (loadXatu parse remote cache true).cache = some b ∧
        parse b = some df ∧ df.isEmpty = false := by
      cases hc : cacheCheck parse cache true with
      | inl d =>
        have hd : d = df := by simpa [loadXatu, hc] using h
        subst hd
        have hcache : (loadXatu parse remote cache true).cache = cache := by
          simp [loadXatu, hc]
        cases cache with
        | none => simp [cacheCheck] at hc
        | some b =>
          cases hp : parse b with
          | none => simp [cacheCheck, hp] at hc
          | some d2 =>
            by_cases he : d2.isEmpty
            · simp [cacheCheck, hp, he] at hc
            · have hd2 : d2 = d := by simpa [cacheCheck, hp, he] using hc
              subst hd2
              exact ⟨b, hcache, hp, by simpa using he⟩
      | inr c0 =>
        have h' : (downloadPhase parse remote c0).result = some df := by
          simpa [loadXatu, hc] using h
        have hcache : (loadXatu parse remote cache true).cache
            = (downloadPhase parse remote c0).cache := by
          simp [loadXatu, hc]
        obtain ⟨b, hb, hp2, hne⟩ := downloadPhase_success parse remote c0 df h'
        exact ⟨b, by rw [hcache, hb], hp2, hne⟩
    obtain ⟨b, hb, hp, hne⟩ := hcc
    rw [hb]
    simp [loadXatu, cacheCheck, hp, hne, ← hb]
  constructor
  · -- unconditional equality of the two results
    cases hr : (loadXatu parse remote cache true).result with
    | some df => rw [hmain df hr]
    | none =>
      -- the first call failed: the second call falls through to the same
      -- download, whose result does not depend on the leftover cache state
      cases hc : cacheCheck parse cache true with
      | inl d => simp [loadXatu, hc] at hr
      | inr c0 =>
        have hr' : (downloadPhase parse remote c0).result = none := by
          simpa [loadXatu, hc] using hr
        obtain ⟨c1, hc1⟩ := cacheCheck_fallthrough_again parse cache c0 hc
        -- the cache left behind by the failed download also falls through
        have hfall : ∃ c2, cacheCheck parse (downloadPhase parse remote c0).cache true
            = Sum.inr c2 := by
          cases remote with
          | ok content =>
            cases hpc : parse content with
            | none =>
              refine ⟨none, ?_⟩
              simp [downloadPhase, hpc, cacheCheck]
            | some d =>
              by_cases he : d.isEmpty
              · refine ⟨some content, ?_⟩
                simp [downloadPhase, hpc, he, cacheCheck]
              · exfalso
                simp [downloadPhase, hpc, he] at hr'
          | notFound => exact ⟨c1, by simpa [downloadPhase] using hc1⟩
          | httpErr => exact ⟨c1, by simpa [downloadPhase] using hc1⟩
          | netErr => exact ⟨c1, by simpa [downloadPhase] using hc1⟩
        obtain ⟨c2, hc2⟩ := hfall
        have hsecond : (loadXatu parse remote (loadXatu parse remote cache true).cache
            true).result = (downloadPhase parse remote c2).result := by
          simp [loadXatu, hc, hc2]
        rw [hsecond, downloadPhase_result_congr parse remote c2 c0, hr']
  · intro df h
    have h2 := hmain df h
    rw [h2]
    refine ⟨rfl, ?_⟩
    -- the first call itself performs at most one GET
    cases hc : cacheCheck parse cache true with
    | inl d => simp [loadXatu, hc]
    | inr c0 => simp [loadXatu, hc, downloadPhase_gets]

/-- Concrete parse function used in witnesses and counterexamples for the
fetcher: byte value 0 is undecodable, byte value `b+1` decodes to a
dataset of `b+1` rows. -/
def parseN : ℕ → Option (List ℕ) := fun b => if b = 0 then none else some (List.range b)

/-- C2 counterexample.  For a key whose remote partition does not exist
(HTTP 404, e.g. a date not yet published), two consecutive cached fetches
perform two remote GETs in total, not at most one: nothing is cached after
a 404, so the second call downloads again. -/
theorem C2_counterexample :
    (loadXatu parseN RemoteResp.notFound none true).gets
      + (loadXatu parseN RemoteResp.notFound
          (loadXatu parseN RemoteResp.notFound none true).cache true).gets = 2 ∧
    ¬ ((loadXatu parseN RemoteResp.notFound none true).gets
      + (loadXatu parseN RemoteResp.notFound
          (loadXatu parseN RemoteResp.notFound none true).cache true).gets ≤ 1) := by
  constructor <;> decide

/-- C2 witness: a successful first call (remote body 2 decodes to a two-row
dataset).  The second call is a pure cache hit: zero GETs, same dataset. -/
theorem C2_cache_idempotent_witness :
    (loadXatu parseN (RemoteResp.ok 2) none true).result = some [0, 1] ∧
    (loadXatu parseN (RemoteResp.ok 2)
        (loadXatu parseN (RemoteResp.ok 2) none true).cache true).gets = 0 ∧
    (loadXatu parseN (RemoteResp.ok 2) none true).gets
      + (loadXatu parseN (RemoteResp.ok 2)
          (loadXatu parseN (RemoteResp.ok 2) none true).cache true).gets ≤ 1 := by
  refine ⟨by decide, ?_⟩
  exact (C2_cache_idempotent parseN (RemoteResp.ok 2) none).2 [0, 1] (by decide)

/-- C3 (amended), main theorem.  During a cached fetch with a present cache
entry: a decode error deletes the entry before the remote attempt, but an
empty read does NOT delete it — the fetcher falls through to the remote
fetch with the entry still in place (a later successful download merely
overwrites it). -/
theorem C3_cache_invalidation {Bytes α : Type} (parse : Bytes → Option (List α))
    (b : Bytes) :
    (parse b = none → cacheCheck parse (some b) true = Sum.inr none) ∧
    (parse b = some [] → cacheCheck parse (some b) true = Sum.inr (some b)) := by
  constructor
  · intro h; simp [cacheCheck, h]
  · intro h; simp [cacheCheck, h]

/-- C3 counterexample.  A cached entry (byte value 5) that reads as an empty
dataset is NOT removed before the remote attempt: the fall-through state
still holds the entry, refuting "in both failure cases the corrupt/empty
file is removed before the remote attempt". -/
def parseEmptyN : ℕ → Option (List ℕ) := fun b => if b = 0 then none else some []

theorem C3_counterexample :
    cacheCheck parseEmptyN (some 5) true = Sum.inr (some 5) ∧
    (some 5 : Option ℕ) ≠ none := by
  constructor <;> decide

theorem C3_cache_invalidation_witness :
    cacheCheck parseEmptyN (some 0) true = Sum.inr none ∧
    cacheCheck parseEmptyN (some 5) true = Sum.inr (some 5) :=
  ⟨(C3_cache_invalidation parseEmptyN 0).1 (by decide),
   (C3_cache_invalidation parseEmptyN 5).2 (by decide)⟩

/- ## Part 2: the range assembler `load_xatu_data_range` (src/utils.py) -/

/-- Tabular dataset as consumed by `pl.concat`: a column schema plus the
list of rows. -/
structure DF (α : Type) where
  cols : List String
  rows : List α
  deriving DecidableEq

/-- Model of vertical `pl.concat` (src/utils.py line 148): succeeds iff all
frames share the first frame's column schema, producing the concatenation
of the rows in order; a schema mismatch raises, modelled as `none`. -/
def concatDF {α : Type} : List (DF α) → Option (DF α)
  | [] => none
  | d :: rest =>
    if rest.all (fun e => e.cols == d.cols) then
      some ⟨d.cols, (d :: rest).flatMap (fun e => e.rows)⟩
    else none

/-- Contribution of one day to the collected `dfs` list of
`load_xatu_data_range` (src/utils.py lines 139-140): the frame is kept only
when the fetch returned one and it is non-empty. -/
def dayFrames {α : Type} (fetch : ℕ → Option (DF α)) (d : ℕ) : List (DF α) :=
  match fetch d with
  | some df => if df.rows.isEmpty then [] else [df]
  | none => []

/-- Day loop of `load_xatu_data_range` (src/utils.py lines 130-143), by
recursion on the number of remaining days.  `n` is `total_days`, `d` the
current date (as a day ordinal) and `k` the `days_processed` counter.
Returns the collected non-empty frames in day order together with the list
of values passed to the progress callback (one value emitted before each
day's fetch, line 134). -/
def rangeLoop {α : Type} (fetch : ℕ → Option (DF α)) (n : ℕ) :
    ℕ → ℕ → ℕ → List (DF α) × List ℚ
  | 0, _, _ => ([], [])
  | r + 1, d, k =>
    let rest := rangeLoop fetch n r (d + 1) (k + 1)
    (dayFrames fetch d ++ rest.1, ((k : ℚ) / (n : ℚ)) :: rest.2)

/-- The function `load_xatu_data_range` (src/utils.py lines 106-156).
Dates are day ordinals; the range is inclusive, so `total_days` is
`endD - startD + 1`.  `Except.error` models the `ValueError` raised on an
inverted range; `Except.ok none` models returning `None` (used both on the
all-days-absent path, line 156, and for the caught concatenation failure,
line 153).  The second component is the list of progress values. -/
def loadRange {α : Type} (fetch : ℕ → Option (DF α)) (startD endD : ℕ) :
    Except String (Option (DF α)) × List ℚ :=
  if startD > endD then
    (Except.error "Start date must be before or equal to end date", [])
  else
    let n := endD - startD + 1
    let out := rangeLoop fetch n n startD 0
    (if out.1.isEmpty then Except.ok none
     else
       match concatDF out.1 with
       | some c => Except.ok (some c)
       | none => Except.ok none,
     out.2)

theorem rangeLoop_fst {α : Type} (fetch : ℕ → Option (DF α)) (n : ℕ) :
    ∀ (r d k : ℕ), (rangeLoop fetch n r d k).1
      = ((List.range r).map (fun j => d + j)).flatMap (dayFrames fetch) := by
  intro r
  induction r with
  | zero => intro d k; simp [rangeLoop]
  | succ r ih =>
    intro d k
    rw [rangeLoop]
    simp only [ih (d + 1) (k + 1), List.range_succ_eq_map, List.map_cons,
      List.map_map, List.flatMap_cons, Nat.add_zero]
    congr 2
    apply List.map_congr_left
    intro j _
    simp only [Function.comp_apply, Nat.succ_eq_add_one]
    omega

theorem rangeLoop_snd {α : Type} (fetch : ℕ → Option (DF α)) (n : ℕ) :
    ∀ (r d k : ℕ), (rangeLoop fetch n r d k).2
      = (List.range r).map (fun j => ((k + j : ℕ) : ℚ) / (n : ℚ)) := by
  intro r
  induction r with
  | zero => intro d k; simp [rangeLoop]
  | succ r ih =>
    intro d k
    rw [rangeLoop]
    simp only [ih (d + 1) (k + 1), List.range_succ_eq_map, List.map_cons,
      List.map_map, Nat.add_zero, List.cons.injEq]
    refine ⟨trivial, ?_⟩
    apply List.map_congr_left
    intro j _
    simp only [Function.comp_apply, Nat.succ_eq_add_one]
    rw [show k + 1 + j = k + (j + 1) from by omega]

/-- When the per-day fetch never returns an empty frame (which is the case
for `load_xatu_data`, see `loadXatu_result_nonempty`), the collected list
is exactly the `filterMap` of the fetch over the days. -/
theorem flatMap_dayFrames_eq_filterMap {α : Type} (fetch : ℕ → Option (DF α))
    (hne : ∀ d df, fetch d = some df → df.rows ≠ []) :
    ∀ (days : List ℕ), days.flatMap (dayFrames fetch) = days.filterMap fetch := by
  intro days
  induction days with
  | nil => rfl
  | cons a l ih =>
    rw [List.flatMap_cons, ih]
    cases hf : fetch a with
    | none => simp [dayFrames, hf, List.filterMap_cons]
    | some df =>
      have : df.rows.isEmpty = false := by
        simp only [List.isEmpty_eq_false]
        exact hne a df hf
      simp [dayFrames, hf, this, List.filterMap_cons]

/-- C4: range skip semantics.  Over an inclusive day range, days whose
single-day fetch returns Absent are skipped without error; if every day is
Absent the overall result is Absent (`None`); otherwise (given the fetcher
invariants: returned frames are non-empty and share one schema) the result
is the concatenation of the per-day frames in ascending day order, and its
row count is the sum of the per-day row counts. -/
theorem C4_range_skip {α : Type} (fetch : ℕ → Option (DF α)) (startD endD : ℕ)
    (C : List String)
    (hle : startD ≤ endD)
    (hne : ∀ d df, fetch d = some df → df.rows ≠ [])
    (hcols : ∀ d df, fetch d = some df → df.cols = C) :
    ((∀ d ∈ (List.range (endD - startD + 1)).map (fun j => startD + j),
        fetch d = none) →
      (loadRange fetch startD endD).1 = Except.ok none) ∧
    ((∃ d ∈ (List.range (endD - startD + 1)).map (fun j => startD + j),
        fetch d ≠ none) →
      ∃ c, (loadRange fetch startD endD).1 = Except.ok (some c) ∧
        c.rows = (((List.range (endD - startD + 1)).map
            (fun j => startD + j)).filterMap fetch).flatMap (fun e => e.rows) ∧
        c.rows.length = ((((List.range (endD - startD + 1)).map
            (fun j => startD + j)).filterMap fetch).map
              (fun e => e.rows.length)).sum) := by
  have hngt : ¬ startD > endD := by omega
  have hout : (rangeLoop fetch (endD - startD + 1) (endD - startD + 1) startD 0).1
      = ((List.range (endD - startD + 1)).map (fun j => startD + j)).filterMap fetch := by
    rw [rangeLoop_fst, flatMap_dayFrames_eq_filterMap fetch hne]
  constructor
  · intro habs
    have hnil : ((List.range (endD - startD + 1)).map
        (fun j => startD + j)).filterMap fetch = [] :=
      List.filterMap_eq_nil_iff.mpr habs
    unfold loadRange
    rw [if_neg hngt]
    simp only [hout, hnil]
    rfl
  · rintro ⟨d, hd, hsome⟩
    cases hf : fetch d with
    | none => exact absurd hf hsome
    | some df =>
      -- the collected list is non-empty
      have hmem : df ∈ ((List.range (endD - startD + 1)).map
          (fun j => startD + j)).filterMap fetch :=
        List.mem_filterMap.mpr ⟨d, hd, hf⟩
      have hnonnil : ((List.range (endD - startD + 1)).map
          (fun j => startD + j)).filterMap fetch ≠ [] := by
        intro hnil
        rw [hnil] at hmem
        exact absurd hmem (List.not_mem_nil df)
      -- every collected frame has schema C
      have hallC : ∀ e ∈ ((List.range (endD - startD + 1)).map
          (fun j => startD + j)).filterMap fetch, e.cols = C := by
        intro e he
        obtain ⟨a, _, hfa⟩ := List.mem_filterMap.mp he
        exact hcols a e hfa
      obtain ⟨d0, rest, hcons⟩ := List.exists_cons_of_ne_nil hnonnil
      have hconcat : concatDF (((List.range (endD - startD + 1)).map
          (fun j => startD + j)).filterMap fetch)
          = some ⟨C, (((List.range (endD - startD + 1)).map
              (fun j => startD + j)).filterMap fetch).flatMap (fun e => e.rows)⟩ := by
        have hd0 : d0.cols = C := hallC d0 (hcons ▸ List.mem_cons_self d0 rest)
        have hall : (rest.all fun e => e.cols == C) = true := by
          rw [List.all_eq_true]
          intro e he
          have : e.cols = C := hallC e (hcons ▸ List.mem_cons_of_mem d0 he)
          simp [this]
        rw [hcons]
        simp only [concatDF, hd0, hall, if_true]
      refine ⟨⟨C, (((List.range (endD - startD + 1)).map
          (fun j => startD + j)).filterMap fetch).flatMap (fun e => e.rows)⟩, ?_, rfl, ?_⟩
      · unfold loadRange
        rw [if_neg hngt]
        simp only [hout]
        have hnotempty : (((List.range (endD - startD + 1)).map
            (fun j => startD + j)).filterMap fetch).isEmpty = false := by
          simp only [List.isEmpty_eq_false]
          exact hnonnil
        simp only [hnotempty, Bool.false_eq_true, if_false, hconcat]
      · simp only [List.length_flatMap]
        rfl

/-- Concrete 3-day fetch used in witnesses: day 1 is Absent, days 0 and 2
deliver a one-row frame with schema `["a"]`. -/
def fetch3 : ℕ → Option (DF ℕ) :=
  fun d => if d = 1 then none else some ⟨["a"], [d]⟩

theorem C4_range_skip_witness :
    ∃ c, (loadRange fetch3 0 2).1 = Except.ok (some c) ∧
      c.rows = [0, 2] ∧ c.rows.length = 2 := by
  have hne : ∀ d df, fetch3 d = some df → df.rows ≠ [] := by
    intro d df h
    unfold fetch3 at h
    split at h
    · exact absurd h (by simp)
    · cases h; simp
  have hcols : ∀ d df, fetch3 d = some df → df.cols = ["a"] := by
    intro d df h
    unfold fetch3 at h
    split at h
    · exact absurd h (by simp)
    · cases h; rfl
  obtain ⟨c, h1, h2, h3⟩ := (C4_range_skip fetch3 0 2 ["a"] (by decide) hne hcols).2
    ⟨0, by decide, by decide⟩
  refine ⟨c, h1, ?_, ?_⟩
  · rw [h2]; decide
  · rw [h3]; decide

/-- C5: progress reporting.  Over an inclusive range of `n` days the
progress callback receives exactly the values `0/n, 1/n, ..., (n-1)/n`, in
this order (each emitted before the corresponding day's fetch), and the
sequence is strictly increasing. -/
theorem C5_progress {α : Type} (fetch : ℕ → Option (DF α)) (startD endD : ℕ)
    (hle : startD ≤ endD) :
    (loadRange fetch startD endD).2
      = (List.range (endD - startD + 1)).map
          (fun k : ℕ => (k : ℚ) / ((endD - startD + 1 : ℕ) : ℚ)) ∧
    (loadRange fetch startD endD).2.Chain' (· < ·) := by
  have hngt : ¬ startD > endD := by omega
  have hsnd : (loadRange fetch startD endD).2
      = (List.range (endD - startD + 1)).map
          (fun k : ℕ => (k : ℚ) / ((endD - startD + 1 : ℕ) : ℚ)) := by
    unfold loadRange
    rw [if_neg hngt]
    simp only [rangeLoop_snd]
    apply List.map_congr_left
    intro j _
    norm_num
  refine ⟨hsnd, ?_⟩
  rw [hsnd]
  rw [List.chain'_map]
  have hpos : (0 : ℚ) < ((endD - startD + 1 : ℕ) : ℚ) := by positivity
  apply List.Pairwise.chain'
  apply List.Pairwise.imp ?_ (List.pairwise_lt_range _)
  intro a b hab
  apply div_lt_div_of_pos_right _ hpos
  exact_mod_cast hab

theorem C5_progress_witness :
    (loadRange fetch3 0 2).2 = [0, 1/3, 2/3] ∧
    (loadRange fetch3 0 2).2.Chain' (· < ·) := by
  obtain ⟨h1, h2⟩ := C5_progress fetch3 0 2 (by decide)
  refine ⟨?_, h2⟩
  rw [h1]
  norm_num [List.range_succ]

/-- C6 (amended): a failure of `pl.concat` on the collected per-day frames
(e.g. mismatched column schemas) is caught inside `load_xatu_data_range`
(src/utils.py lines 151-153), logged, and collapsed into the Absent
outcome `None` — the caller receives the very same value as for "no data",
not a hard error. -/
theorem C6_concat_collapse {α : Type} (fetch : ℕ → Option (DF α))
    (startD endD : ℕ) (hle : startD ≤ endD)
    (hfail : concatDF ((rangeLoop fetch (endD - startD + 1)
        (endD - startD + 1) startD 0).1) = none) :
    (loadRange fetch startD endD).1 = Except.ok none := by
  have hngt : ¬ startD > endD := by omega
  unfold loadRange
  rw [if_neg hngt]
  simp only
  by_cases hemp : (rangeLoop fetch (endD - startD + 1)
      (endD - startD + 1) startD 0).1.isEmpty
  · simp [hemp]
  · simp [hemp, hfail]

/-- Concrete 2-day fetch with mismatched schemas on the two days. -/
def fetchMismatch : ℕ → Option (DF ℕ) :=
  fun d => if d = 0 then some ⟨["a"], [0]⟩ else some ⟨["b"], [1]⟩

/-- C6 counterexample.  Both days return non-empty frames but with
different schemas; the range fetch returns `Except.ok none` — exactly the
silent Absent value that an all-absent range produces — rather than
surfacing a hard error distinct from Absent. -/
theorem C6_counterexample :
    (loadRange fetchMismatch 0 1).1 = Except.ok none ∧
    (loadRange (fun _ => (none : Option (DF ℕ))) 0 1).1 = Except.ok none ∧
    fetchMismatch 0 ≠ none ∧ fetchMismatch 1 ≠ none := by
  refine ⟨rfl, rfl, by decide, by decide⟩

theorem C6_concat_collapse_witness :
    (loadRange fetchMismatch 0 1).1 = Except.ok none :=
  C6_concat_collapse fetchMismatch 0 1 (by decide) (by decide)

/- ## Part 3: the normalizer `preprocess_data`
   (src/dashboards/block_arrival/data_processing.py) -/

/-- One raw observation row as consumed by `preprocess_data`.  Binary
columns are modelled post-cast as strings (the value-preserving
`Binary -> Utf8` cast of lines 43-46); `eventTime` stands for
`event_date_time`, in seconds. -/
structure Row where
  slot : ℕ
  epoch : ℕ
  propDiff : ℤ          -- propagation_slot_start_diff, in ms
  eventTime : ℕ         -- event_date_time
  clientImpl : String   -- meta_consensus_implementation
  geoCountry : String   -- meta_client_geo_country
  deriving DecidableEq

/-- Capping of propagation times at 6000 ms (data_processing.py lines
49-54): `capped_diff_ms` is 6000 when the raw value exceeds 6000, else the
raw value. -/
def capDiff (d : ℤ) : ℤ := if d > 6000 then 6000 else d

/-- Hour extraction `event_date_time.dt.hour()` (line 61), with the
timestamp modelled in seconds. -/
def hourOf (t : ℕ) : ℕ := t / 3600 % 24

/-- Composite block identifier (line 67):
`block_id = str(slot) + "_" + str(epoch)`. -/
def mkBlockId (slot epoch : ℕ) : String :=
  toString slot ++ "_" ++ toString epoch

/-- Row after the column-adding steps of `preprocess_data` (lines 43-68). -/
structure NRow extends Row where
  cappedDiffMs : ℤ
  network : String
  hour : ℕ
  blockId : String
  deriving DecidableEq

/-- The `with_columns` steps of lines 49-68 applied to one row. -/
def addDerived (net : String) (r : Row) : NRow :=
  { r with
    cappedDiffMs := capDiff r.propDiff
    network := net
    hour := hourOf r.eventTime
    blockId := mkBlockId r.slot r.epoch }

/-- Model of polars `Series.quantile` with its default "nearest"
interpolation: the element of the ascending-sorted list at index
`round(q * (n - 1))`.  No verified claim depends on the exact
interpolation rule. -/
def quantileNearest (q : ℚ) (xs : List ℚ) : ℚ :=
  let s := xs.insertionSort (· ≤ ·)
  s.getD (Int.toNat ⌊q * ((s.length : ℚ) - 1) + 1/2⌋) 0

/-- Arithmetic mean of a list of rationals (polars `mean`). -/
def meanQ (xs : List ℚ) : ℚ := xs.sum / (xs.length : ℚ)

/-- One row of the `block_stats` frame (data_processing.py lines 72-82). -/
structure BlockStat where
  blockId : String
  slot : ℕ
  epoch : ℕ
  firstSeenTime : ℕ
  minPropagationMs : ℤ
  meanPropagationMs : ℚ
  medianPropagationMs : ℚ
  p90PropagationMs : ℚ
  numObservations : ℕ
  hour : ℕ
  deriving DecidableEq

/-- Aggregation of the group of rows sharing `block_id = k`
(data_processing.py lines 72-82): `first`, `min`, `mean`, `median`,
`quantile(0.9)` and `count` over the group. -/
def blockStatOf (rows : List NRow) (k : String) : BlockStat :=
  let g := rows.filter (fun r => r.blockId == k)
  { blockId := k
    slot := (g.map (fun r => r.slot)).headD 0
    epoch := (g.map (fun r => r.epoch)).headD 0
    firstSeenTime := ((g.map (fun r => r.eventTime)).min?).getD 0
    minPropagationMs := ((g.map (fun r => r.cappedDiffMs)).min?).getD 0
    meanPropagationMs := meanQ (g.map (fun r => (r.cappedDiffMs : ℚ)))
    medianPropagationMs :=
      quantileNearest (1/2) (g.map (fun r => (r.cappedDiffMs : ℚ)))
    p90PropagationMs :=
      quantileNearest (9/10) (g.map (fun r => (r.cappedDiffMs : ℚ)))
    numObservations := g.length
    hour := (g.map (fun r => r.hour)).headD 0 }

/-- The `group_by("block_id").agg(...)` of lines 72-82: one output row per
distinct `block_id` value, aggregating the group of input rows with that
id. -/
def blockStats (rows : List NRow) : List BlockStat :=
  ((rows.map (fun r => r.blockId)).dedup).map (blockStatOf rows)

/-- Result dictionary of `preprocess_data` (lines 94-98). -/
structure PreResult where
  raw : List (NRow × Bool)
  block_stats : List BlockStat
  network : String

/-- The happy path of `preprocess_data` on an already-converted frame:
derive the added columns, build `block_stats`, then flag each row with
`is_slow_propagation = capped_diff_ms > quantile(0.75)` (lines 86-91),
the threshold being recomputed from the whole batch. -/
def preprocessRun (rows : List Row) (net : String) : PreResult :=
  let d := rows.map (addDerived net)
  let thr := quantileNearest (3/4) (d.map (fun r => (r.cappedDiffMs : ℚ)))
  { raw := d.map (fun r => (r, decide ((r.cappedDiffMs : ℚ) > thr)))
    block_stats := blockStats d
    network := net }

/-- Input representation dispatch of `preprocess_data` (lines 24-32): a
pandas frame (converted to polars), a polars frame, or anything else
(whose type name appears in the error message). -/
inductive PreInput where
  | pandas (rows : List Row)
  | polars (rows : List Row)
  | other (typeName : String)

/-- The function `preprocess_data` (data_processing.py lines 9-104):
returns the result dictionary (or `none`) together with the list of
messages reported through `st.error`. -/
def preprocessData : PreInput → String → Option PreResult × List String
  | .pandas rows, net => (some (preprocessRun rows net), [])
  | .polars rows, net => (some (preprocessRun rows net), [])
  | .other t, _ => (none, ["Unsupported DataFrame type: " ++ t])

theorem capDiff_eq_min (d : ℤ) : capDiff d = min d 6000 := by
  unfold capDiff
  split <;> omega

/-- C1: for every row of the normalizer's output, the capped delay equals
`min(rawDelay, 6000)` and never exceeds 6000; in particular a raw delay of
7500 caps to 6000 and a raw delay of 200 stays 200. -/
theorem C1_capping (rows : List Row) (net : String) :
    (∀ p ∈ (preprocessRun rows net).raw,
      p.1.cappedDiffMs = min p.1.propDiff 6000 ∧ p.1.cappedDiffMs ≤ 6000) ∧
    capDiff 7500 = 6000 ∧ capDiff 200 = 200 := by
  refine ⟨?_, by decide, by decide⟩
  intro p hp
  simp only [preprocessRun, List.mem_map] at hp
  obtain ⟨nr, hnr, hpe⟩ := hp
  obtain ⟨r, _, hr⟩ := hnr
  subst hr
  rw [← hpe]
  simp only [addDerived]
  refine ⟨capDiff_eq_min r.propDiff, ?_⟩
  rw [capDiff_eq_min]
  omega

theorem C1_capping_witness :
    capDiff 7500 = 6000 ∧ capDiff 200 = 200 ∧
    ∃ p : NRow × Bool,
      p ∈ (preprocessRun [⟨1, 2, 7500, 0, "prysm", "US"⟩] "mainnet").raw ∧
      p.1.cappedDiffMs = min p.1.propDiff 6000 ∧ p.1.cappedDiffMs ≤ 6000 ∧
      p.1.cappedDiffMs = 6000 := by
  have h := C1_capping [⟨1, 2, 7500, 0, "prysm", "US"⟩] "mainnet"
  obtain ⟨hall, h75, h200⟩ := h
  have hmem : ∃ p : NRow × Bool,
      p ∈ (preprocessRun [⟨1, 2, 7500, 0, "prysm", "US"⟩] "mainnet").raw := by
    simp [preprocessRun]
  obtain ⟨p, hp⟩ := hmem
  obtain ⟨h1, h2⟩ := hall p hp
  have hp2 := hp
  simp only [preprocessRun, List.map_cons, List.map_nil, List.mem_singleton] at hp2
  have hfst : p.1 = addDerived "mainnet" ⟨1, 2, 7500, 0, "prysm", "US"⟩ := by
    rw [hp2]
  refine ⟨h75, h200, p, hp, h1, h2, ?_⟩
  rw [hfst]
  decide

/-- C7: the normalizer accepts exactly the two supported input
representations: a pandas frame (converted, then processed) and a polars
frame (processed directly); any other input yields no result and an
unsupported-type error message naming the offending type, and processing
stops for that call. -/
theorem C7_input_types :
    (∀ rows net, preprocessData (PreInput.pandas rows) net
        = (some (preprocessRun rows net), [])) ∧
    (∀ rows net, preprocessData (PreInput.polars rows) net
        = (some (preprocessRun rows net), [])) ∧
    (∀ t net, preprocessData (PreInput.other t) net
        = (none, ["Unsupported DataFrame type: " ++ t])) :=
  ⟨fun _ _ => rfl, fun _ _ => rfl, fun _ _ => rfl⟩

theorem blockStats_map_blockId (rows : List NRow) :
    (blockStats rows).map (fun s => s.blockId)
      = (rows.map (fun r => r.blockId)).dedup := by
  unfold blockStats
  rw [List.map_map]
  exact (List.map_congr_left fun a _ => rfl).trans (List.map_id _)

theorem blockStats_sum_obs (rows : List NRow) :
    ((blockStats rows).map (fun s => s.numObservations)).sum = rows.length := by
  unfold blockStats
  rw [List.map_map]
  have h1 : (rows.map (fun r => r.blockId)).dedup.map
        ((fun s : BlockStat => s.numObservations) ∘ blockStatOf rows)
      = (rows.map (fun r => r.blockId)).dedup.map
          (fun k => (rows.map (fun r => r.blockId)).count k) := by
    apply List.map_congr_left
    intro k _
    show (rows.filter (fun r => r.blockId == k)).length
        = (rows.map (fun r => r.blockId)).count k
    rw [← List.countP_eq_length_filter]
    show rows.countP (fun r => r.blockId == k)
        = (rows.map fun r => r.blockId).countP (· == k)
    rw [List.countP_map]
    rfl
  rw [h1, List.sum_map_count_dedup_eq_length, List.length_map]

/-- C10: the `block_stats` table is a partition of the input: it has
exactly one row per distinct `block_id` occurring in the input (its id
column is duplicate-free and has the same members as the input's derived
ids), and the `num_observations` column sums to the number of input
rows. -/
theorem C10_block_partition (rows : List Row) (net : String) :
    ((preprocessRun rows net).block_stats.map (fun s => s.blockId)).Nodup ∧
    (∀ k, k ∈ (preprocessRun rows net).block_stats.map (fun s => s.blockId) ↔
      k ∈ rows.map (fun r => mkBlockId r.slot r.epoch)) ∧
    ((preprocessRun rows net).block_stats.map
        (fun s => s.numObservations)).sum = rows.length := by
  have hbs : (preprocessRun rows net).block_stats
      = blockStats (rows.map (addDerived net)) := rfl
  have hids : (rows.map (addDerived net)).map (fun r => r.blockId)
      = rows.map (fun r => mkBlockId r.slot r.epoch) := by
    rw [List.map_map]
    rfl
  refine ⟨?_, ?_, ?_⟩
  · rw [hbs, blockStats_map_blockId]
    exact List.nodup_dedup _
  · intro k
    rw [hbs, blockStats_map_blockId, List.mem_dedup, hids]
  · rw [hbs, blockStats_sum_obs, List.length_map]

/- ## Part 4: the per-entity CDF construction
   (src/dashboards/block_arrival/sections/client_analysis.py, lines
   126-161; the same algorithm is repeated for countries, lines 263-298) -/

/-- Python `round` to the nearest integer as used through polars
`.round(0)` (half-up; the tie behaviour is irrelevant to the verified
claims). -/
def roundQ (x : ℚ) : ℚ := ((⌊x + 1/2⌋ : ℤ) : ℚ)

/-- Bucketing of a propagation time to the nearest 50 ms
(client_analysis.py line 137): `(x.round(0) / 50).round(0) * 50`. -/
def bucket50 (x : ℚ) : ℚ := roundQ (roundQ x / 50) * 50

/-- Bucketed propagation times of one entity (client implementation),
extracted from the normalizer's `raw` output (client_analysis.py lines
130-138): filter to the entity, then bucket `capped_diff_ms`. -/
def bucketTimes (rows : List (NRow × Bool)) (client : String) : List ℚ :=
  (rows.filter (fun p => p.1.clientImpl == client)).map
    (fun p => bucket50 ((p.1.cappedDiffMs : ℚ)))

/-- The `percentiles[-1] = (i + 1) / len(times)` assignment
(client_analysis.py line 153) on the zipped
`(unique_times, percentiles)` list. -/
def setLastPct : List (ℚ × ℚ) → ℚ → List (ℚ × ℚ)
  | [], _ => []
  | [x], p => [(x.1, p)]
  | x :: y :: xs, p => x :: setLastPct (y :: xs) p

/-- Loop state of the CDF walk (client_analysis.py lines 142-153): `acc`
zips the parallel `unique_times` / `percentiles` lists, `idx` is the
enumeration index `i`, `current` is `current_time` (`none` is Python's
`None`). -/
structure CdfState where
  acc : List (ℚ × ℚ)
  idx : ℕ
  current : Option ℚ

/-- One iteration of `for i, time in enumerate(times)` (lines 146-153):
on a value different from `current_time` append
`(time, (i + 1) / len(times))` and update `current_time`; otherwise, at
the last index only, overwrite the last recorded percentile with
`(i + 1) / len(times)`. -/
def cdfStep (n : ℕ) (s : CdfState) (t : ℚ) : CdfState :=
  if some t ≠ s.current then
    { acc := s.acc ++ [(t, ((s.idx : ℚ) + 1) / (n : ℚ))]
      idx := s.idx + 1
      current := some t }
  else if s.idx = n - 1 then
    { acc := setLastPct s.acc (((s.idx : ℚ) + 1) / (n : ℚ))
      idx := s.idx + 1
      current := s.current }
  else
    { acc := s.acc, idx := s.idx + 1, current := s.current }

/-- The CDF construction for one entity (client_analysis.py lines
138-156): sort the bucketed times ascending and walk them once; the
result zips the emitted `(bucket value, cumulative probability)`
points. -/
def buildCdf (times : List ℚ) : List (ℚ × ℚ) :=
  ((times.insertionSort (· ≤ ·)).foldl (cdfStep times.length) ⟨[], 0, none⟩).acc

/-- CDF points for one client implementation, as appended to `cdf_data`
(client_analysis.py lines 130-161). -/
def clientCdf (rows : List (NRow × Bool)) (client : String) : List (ℚ × ℚ) :=
  buildCdf (bucketTimes rows client)

/-- Number of elements of `s` strictly below `v`. -/
def countLt (s : List ℚ) (v : ℚ) : ℕ := s.countP (fun x => decide (x < v))

theorem setLastPct_eq (l : List (ℚ × ℚ)) (p : ℚ) (h : l ≠ []) :
    ∃ q, l.getLast? = some q ∧ setLastPct l p = l.dropLast ++ [(q.1, p)] := by
  induction l with
  | nil => exact absurd rfl h
  | cons x xs ih =>
    cases xs with
    | nil => exact ⟨x, rfl, rfl⟩
    | cons y ys =>
      obtain ⟨q, hq, he⟩ := ih (by simp)
      refine ⟨q, ?_, ?_⟩
      · rw [List.getLast?_cons_cons]
        exact hq
      · rw [setLastPct, he]
        rfl

theorem eq_dropLast_append_of_getLast? {l : List (ℚ × ℚ)} {q : ℚ × ℚ}
    (h : l.getLast? = some q) : l = l.dropLast ++ [q] := by
  obtain ⟨hne, rfl⟩ := List.mem_getLast?_eq_getLast (Option.mem_def.mpr h)
  exact (List.dropLast_append_getLast hne).symm

theorem setLastPct_map_snd (l : List (ℚ × ℚ)) (p : ℚ) (h : l ≠ []) :
    (setLastPct l p).map Prod.snd = (l.map Prod.snd).dropLast ++ [p] := by
  obtain ⟨q, _, he⟩ := setLastPct_eq l p h
  rw [he, List.map_append, List.map_dropLast]
  rfl

theorem setLastPct_map_fst (l : List (ℚ × ℚ)) (p : ℚ) (h : l ≠ []) :
    (setLastPct l p).map Prod.fst = l.map Prod.fst := by
  obtain ⟨q, hq, he⟩ := setLastPct_eq l p h
  rw [he]
  conv_rhs => rw [eq_dropLast_append_of_getLast? hq]
  rw [List.map_append, List.map_append]
  rfl

theorem setLastPct_getElem? (l : List (ℚ × ℚ)) (p : ℚ) (i : ℕ)
    (h : i + 1 < l.length) : (setLastPct l p)[i]? = l[i]? := by
  have hne : l ≠ [] := by
    intro e
    subst e
    simp at h
  obtain ⟨q, hq, he⟩ := setLastPct_eq l p hne
  have hlt : i < l.dropLast.length := by
    rw [List.length_dropLast]
    omega
  rw [he, List.getElem?_append_left hlt]
  conv_rhs => rw [eq_dropLast_append_of_getLast? hq]
  rw [List.getElem?_append_left hlt]

theorem setLastPct_getLast? (l : List (ℚ × ℚ)) (p : ℚ) (h : l ≠ []) :
    ∃ q, l.getLast? = some q ∧ (setLastPct l p).getLast? = some (q.1, p) := by
  obtain ⟨q, hq, he⟩ := setLastPct_eq l p h
  exact ⟨q, hq, by rw [he, List.getLast?_concat]⟩

theorem setLastPct_length (l : List (ℚ × ℚ)) (p : ℚ) :
    (setLastPct l p).length = l.length := by
  rcases eq_or_ne l [] with rfl | h
  · rfl
  · obtain ⟨q, hq, he⟩ := setLastPct_eq l p h
    rw [he]
    conv_rhs => rw [eq_dropLast_append_of_getLast? hq]
    simp

theorem setLastPct_append_single (l : List (ℚ × ℚ)) (x : ℚ × ℚ) (p : ℚ) :
    setLastPct (l ++ [x]) p = l ++ [(x.1, p)] := by
  induction l with
  | nil => rfl
  | cons a t ih =>
    cases t with
    | nil => rfl
    | cons b t2 =>
      show a :: setLastPct ((b :: t2) ++ [x]) p = (a :: b :: t2) ++ [(x.1, p)]
      rw [ih]
      rfl

theorem countLt_cons (a v : ℚ) (t : List ℚ) :
    countLt (a :: t) v = countLt t v + if a < v then 1 else 0 := by
  unfold countLt
  rw [List.countP_cons]
  simp

theorem countLt_eq_zero_of_min (v : ℚ) (s : List ℚ) (h : ∀ x ∈ s, v ≤ x) :
    countLt s v = 0 := by
  unfold countLt
  rw [List.countP_eq_zero]
  intro a ha
  simpa using not_lt.mpr (h a ha)

theorem countLt_mono (s : List ℚ) {v w : ℚ} (hvw : v ≤ w) :
    countLt s v ≤ countLt s w := by
  unfold countLt
  apply List.countP_mono_left
  intro a _ ha
  simp only [decide_eq_true_eq] at ha ⊢
  exact lt_of_lt_of_le ha hvw

theorem countLt_strict (s : List ℚ) {v w : ℚ} (hv : v ∈ s) (hvw : v < w) :
    countLt s v < countLt s w := by
  induction s with
  | nil => cases hv
  | cons a t ih =>
    rw [countLt_cons, countLt_cons]
    rcases List.mem_cons.mp hv with rfl | hvt
    · have hm := countLt_mono t (le_of_lt hvw)
      simp only [lt_irrefl, if_false, hvw, if_true]
      omega
    · have h1 := ih hvt
      by_cases hav : a < v
      · have haw : a < w := lt_trans hav hvw
        simp only [hav, if_true, haw]
        omega
      · simp only [hav, if_false]
        split <;> omega

theorem countLt_lt_length (s : List ℚ) (v : ℚ) (hv : v ∈ s) :
    countLt s v < s.length := by
  rcases lt_or_eq_of_le (List.countP_le_length (fun x => decide (x < v))) with h | h
  · exact h
  · exfalso
    have := List.countP_eq_length.mp h v hv
    simp at this

theorem sorted_dedup {l : List ℚ} (hs : List.Sorted (· ≤ ·) l) :
    List.Sorted (· ≤ ·) l.dedup :=
  hs.sublist (List.dedup_sublist l)

theorem sorted_nodup_min_cons {l : List ℚ} (hs : List.Sorted (· ≤ ·) l)
    (hn : l.Nodup) {v : ℚ} (hv : v ∈ l) (hmin : ∀ x ∈ l, v ≤ x) :
    l = v :: l.filter (fun x => x ≠ v) := by
  cases l with
  | nil => cases hv
  | cons a t =>
    have hva : a = v := by
      rcases List.mem_cons.mp hv with h | h
      · exact h.symm
      · exact le_antisymm (List.rel_of_sorted_cons hs v h)
          (hmin a (List.mem_cons_self a t))
    subst hva
    rw [List.filter_cons_of_neg (by simp)]
    have hat : a ∉ t := (List.nodup_cons.mp hn).1
    congr 1
    symm
    apply List.filter_eq_self.mpr
    intro x hx
    have hxa : x ≠ a := fun e => hat (e ▸ hx)
    simp [hxa]

theorem dedup_cons_min {v : ℚ} {rest : List ℚ} (hs : List.Sorted (· ≤ ·) rest)
    (hv : ∀ x ∈ rest, v ≤ x) :
    (v :: rest).dedup = v :: rest.dedup.filter (fun u => u ≠ v) := by
  by_cases hm : v ∈ rest
  · rw [List.dedup_cons_of_mem hm]
    exact sorted_nodup_min_cons (sorted_dedup hs) (List.nodup_dedup rest)
      (List.mem_dedup.mpr hm) (fun x hx => hv x (List.mem_dedup.mp hx))
  · rw [List.dedup_cons_of_not_mem hm]
    congr 1
    symm
    apply List.filter_eq_self.mpr
    intro x hx
    have hxr : x ∈ rest := List.mem_dedup.mp hx
    have hxv : x ≠ v := fun e => hm (e ▸ hxr)
    simp [hxv]

theorem filtered_dedup_cons {c v : ℚ} {rest : List ℚ}
    (hs : List.Sorted (· ≤ ·) rest) (hv : ∀ x ∈ rest, v ≤ x) (hcv : c < v) :
    ((v :: rest).dedup).filter (fun u => u ≠ c)
      = v :: rest.dedup.filter (fun u => u ≠ v) := by
  rw [dedup_cons_min hs hv]
  rw [List.filter_cons_of_pos (by simp [ne_of_gt hcv])]
  congr 1
  apply List.filter_eq_self.mpr
  intro x hx
  have hx1 : x ∈ rest.dedup := (List.mem_filter.mp hx).1
  have hx2 : x ∈ rest := List.mem_dedup.mp hx1
  have hcx : c < x := lt_of_lt_of_le hcv (hv x hx2)
  simp [ne_of_gt hcx]

/-- Closed form of the CDF walk over a non-empty sorted remainder, from a
state in which at least one point has already been emitted and
`current = some c` with every remaining time at least `c`.  Each new
distinct value `u` is emitted with probability `(i0 + countLt u + 1) / n`
(one-based index of its first occurrence in the whole sorted sequence),
and the very last step sets the final recorded probability to
`(n / n) = 1`. -/
theorem cdf_foldl_run (n : ℕ) (s' : List ℚ) :
    ∀ (acc : List (ℚ × ℚ)) (i : ℕ) (c : ℚ),
      List.Sorted (· ≤ ·) s' → (∀ x ∈ s', c ≤ x) → i + s'.length = n →
      acc ≠ [] → s' ≠ [] →
      (s'.foldl (cdfStep n) ⟨acc, i, some c⟩).acc =
        setLastPct (acc ++ ((s'.dedup.filter (fun u => u ≠ c)).map
            (fun u => (u, ((i : ℚ) + (countLt s' u : ℚ) + 1) / (n : ℚ))))) 1 := by
  induction s' with
  | nil =>
    intro acc i c _ _ _ _ hne
    exact absurd rfl hne
  | cons v rest ih =>
    intro acc i c hs hc hn hacc _
    rw [List.foldl_cons]
    have hlen : i + rest.length + 1 = n := by
      simp only [List.length_cons] at hn
      omega
    by_cases hvc : v = c
    · subst hvc
      have hstep : cdfStep n ⟨acc, i, some v⟩ v =
          if i = n - 1 then
            ⟨setLastPct acc (((i : ℚ) + 1) / (n : ℚ)), i + 1, some v⟩
          else ⟨acc, i + 1, some v⟩ := by
        unfold cdfStep
        simp
      cases rest with
      | nil =>
        simp only [List.length_nil] at hlen
        have hi : i = n - 1 := by omega
        rw [hstep, if_pos hi, List.foldl_nil]
        have hfl : ([v].dedup.filter (fun u => u ≠ v)) = [] := by simp
        simp only [hfl, List.map_nil, List.append_nil]
        congr 1
        have hone : ((i : ℚ) + 1) = (n : ℚ) := by
          exact_mod_cast congrArg (Nat.cast : ℕ → ℚ) (by omega : i + 1 = n)
        rw [hone, div_self (Nat.cast_ne_zero.mpr (by omega))]
      | cons y ys =>
        have hi : i ≠ n - 1 := by
          simp only [List.length_cons] at hlen
          omega
        rw [hstep, if_neg hi]
        rw [ih acc (i + 1) v hs.of_cons
          (fun x hx => List.rel_of_sorted_cons hs x hx)
          (by simp only [List.length_cons] at hlen ⊢; omega) hacc (by simp)]
        congr 2
        have hd : ((v :: y :: ys).dedup).filter (fun u => u ≠ v)
            = ((y :: ys).dedup).filter (fun u => u ≠ v) := by
          by_cases hm : v ∈ y :: ys
          · rw [List.dedup_cons_of_mem hm]
          · rw [List.dedup_cons_of_not_mem hm,
              List.filter_cons_of_neg (by simp)]
        rw [hd]
        apply List.map_congr_left
        intro u hu
        have hu1 : u ∈ y :: ys := List.mem_dedup.mp (List.mem_filter.mp hu).1
        have hu2 : u ≠ v := by simpa using (List.mem_filter.mp hu).2
        have hvu : v < u :=
          lt_of_le_of_ne (hc u (List.mem_cons_of_mem v hu1)) (Ne.symm hu2)
        have hcnt : countLt (v :: y :: ys) u = countLt (y :: ys) u + 1 := by
          rw [countLt_cons, if_pos hvu]
        rw [hcnt]
        refine congrArg (fun z => (u, z)) ?_
        push_cast
        ring
    · have hcv : c < v :=
        lt_of_le_of_ne (hc v (List.mem_cons_self v rest)) (Ne.symm hvc)
      have hstep : cdfStep n ⟨acc, i, some c⟩ v
          = ⟨acc ++ [(v, ((i : ℚ) + 1) / (n : ℚ))], i + 1, some v⟩ := by
        unfold cdfStep
        simp [hvc]
      rw [hstep]
      cases rest with
      | nil =>
        simp only [List.length_nil] at hlen
        rw [List.foldl_nil]
        have hfl : ([v].dedup.filter (fun u => u ≠ c)) = [v] := by simp [hvc]
        simp only [hfl, List.map_cons, List.map_nil]
        have hc0 : countLt [v] v = 0 := countLt_eq_zero_of_min v [v] (by simp)
        rw [hc0]
        rw [setLastPct_append_single]
        have hone : ((i : ℚ) + 1) / (n : ℚ) = 1 := by
          have h1 : ((i : ℚ) + 1) = (n : ℚ) := by
            exact_mod_cast congrArg (Nat.cast : ℕ → ℚ) (by omega : i + 1 = n)
          rw [h1, div_self (Nat.cast_ne_zero.mpr (by omega))]
        rw [hone]
      | cons y ys =>
        rw [ih (acc ++ [(v, ((i : ℚ) + 1) / (n : ℚ))]) (i + 1) v hs.of_cons
          (fun x hx => List.rel_of_sorted_cons hs x hx)
          (by simp only [List.length_cons] at hlen ⊢; omega) (by simp) (by simp)]
        congr 1
        rw [filtered_dedup_cons hs.of_cons
          (fun x hx => List.rel_of_sorted_cons hs x hx) hcv]
        rw [List.map_cons]
        have hc0 : countLt (v :: y :: ys) v = 0 :=
          countLt_eq_zero_of_min v (v :: y :: ys)
            (fun x hx => by
              rcases List.mem_cons.mp hx with rfl | hx2
              · exact le_refl x
              · exact List.rel_of_sorted_cons hs x hx2)
        rw [hc0]
        rw [show acc ++ ((v, ((i : ℚ) + ((0 : ℕ) : ℚ) + 1) / (n : ℚ))
              :: ((y :: ys).dedup.filter (fun u => u ≠ v)).map
                (fun u => (u, ((i : ℚ) + (countLt (v :: y :: ys) u : ℚ) + 1) / (n : ℚ))))
            = (acc ++ [(v, ((i : ℚ) + ((0 : ℕ) : ℚ) + 1) / (n : ℚ))])
              ++ ((y :: ys).dedup.filter (fun u => u ≠ v)).map
                (fun u => (u, ((i : ℚ) + (countLt (v :: y :: ys) u : ℚ) + 1) / (n : ℚ)))
          from by simp]
        have hA : acc ++ [(v, ((i : ℚ) + ((0 : ℕ) : ℚ) + 1) / (n : ℚ))]
            = acc ++ [(v, ((i : ℚ) + 1) / (n : ℚ))] := by norm_num
        have hB : ((y :: ys).dedup.filter (fun u => u ≠ v)).map
              (fun u => (u, ((i : ℚ) + (countLt (v :: y :: ys) u : ℚ) + 1) / (n : ℚ)))
            = ((y :: ys).dedup.filter (fun u => u ≠ v)).map
              (fun u => (u, (((i + 1 : ℕ) : ℚ) + (countLt (y :: ys) u : ℚ) + 1) / (n : ℚ))) := by
          apply List.map_congr_left
          intro u hu
          have hu1 : u ∈ y :: ys := List.mem_dedup.mp (List.mem_filter.mp hu).1
          have hu2 : u ≠ v := by simpa using (List.mem_filter.mp hu).2
          have hvu : v < u :=
            lt_of_le_of_ne (List.rel_of_sorted_cons hs u hu1) (Ne.symm hu2)
          have hcnt : countLt (v :: y :: ys) u = countLt (y :: ys) u + 1 := by
            rw [countLt_cons, if_pos hvu]
          rw [hcnt]
          refine congrArg (fun z => (u, z)) ?_
          push_cast
          ring
        rw [hA, hB]

/-- Closed form of the whole CDF construction for a non-empty input: the
points are the distinct bucket values in ascending order; each carries
probability `(countLt + 1) / n` — one more than the number of strictly
smaller observations, i.e. the one-based index of the value's first
occurrence in the sorted sequence — and the last recorded probability is
then set to `1`. -/
theorem buildCdf_closed (times : List ℚ) (h : times ≠ []) :
    buildCdf times = setLastPct (((times.insertionSort (· ≤ ·)).dedup).map
        (fun v => (v, ((countLt (times.insertionSort (· ≤ ·)) v : ℚ) + 1)
            / ((times.length : ℚ))))) 1 := by
  have hlen : (times.insertionSort (· ≤ ·)).length = times.length :=
    (List.perm_insertionSort (· ≤ ·) times).length_eq
  have hsorted : List.Sorted (· ≤ ·) (times.insertionSort (· ≤ ·)) :=
    List.sorted_insertionSort (· ≤ ·) times
  unfold buildCdf
  cases hsne : times.insertionSort (· ≤ ·) with
  | nil =>
    exfalso
    apply h
    have hp := List.perm_insertionSort (· ≤ ·) times
    rw [hsne] at hp
    exact (List.Perm.nil_eq hp).symm
  | cons v0 s0 =>
    rw [hsne] at hsorted hlen
    rw [List.foldl_cons]
    have hstep : cdfStep times.length ⟨[], 0, none⟩ v0
        = ⟨[(v0, ((0 : ℚ) + 1) / (times.length : ℚ))], 1, some v0⟩ := by
      unfold cdfStep
      simp
    rw [hstep]
    have hmin : ∀ x ∈ v0 :: s0, v0 ≤ x := by
      intro x hx
      rcases List.mem_cons.mp hx with rfl | hx2
      · exact le_refl x
      · exact List.rel_of_sorted_cons hsorted x hx2
    have hc00 : countLt (v0 :: s0) v0 = 0 :=
      countLt_eq_zero_of_min v0 (v0 :: s0) hmin
    cases s0 with
    | nil =>
      rw [List.foldl_nil]
      have hl1 : times.length = 1 := by
        rw [← hlen]
        rfl
      simp only [List.dedup_nil, List.dedup_cons_of_not_mem (List.not_mem_nil v0),
        List.map_cons, List.map_nil, hc00]
      rw [show setLastPct [(v0, (((0 : ℕ) : ℚ) + 1) / (times.length : ℚ))] 1
          = [(v0, 1)] from rfl]
      rw [hl1]
      norm_num
    | cons y ys =>
      rw [cdf_foldl_run times.length (y :: ys)
        [(v0, ((0 : ℚ) + 1) / (times.length : ℚ))] 1 v0
        hsorted.of_cons (List.rel_of_sorted_cons hsorted)
        (by simp only [List.length_cons] at hlen ⊢; omega)
        (by simp) (by simp)]
      rw [dedup_cons_min hsorted.of_cons (List.rel_of_sorted_cons hsorted)]
      rw [List.map_cons, hc00]
      rw [show ((v0, (((0 : ℕ) : ℚ) + 1) / (times.length : ℚ))
            :: ((y :: ys).dedup.filter (fun u => u ≠ v0)).map
              (fun v => (v, ((countLt (v0 :: y :: ys) v : ℚ) + 1) / (times.length : ℚ))))
          = [(v0, (((0 : ℕ) : ℚ) + 1) / (times.length : ℚ))]
            ++ ((y :: ys).dedup.filter (fun u => u ≠ v0)).map
              (fun v => (v, ((countLt (v0 :: y :: ys) v : ℚ) + 1) / (times.length : ℚ)))
        from rfl]
      have hA : [((v0 : ℚ), (((0 : ℕ) : ℚ) + 1) / (times.length : ℚ))]
          = [((v0 : ℚ), ((0 : ℚ) + 1) / (times.length : ℚ))] := by norm_num
      have hB : ((y :: ys).dedup.filter (fun u => u ≠ v0)).map
            (fun v => (v, ((countLt (v0 :: y :: ys) v : ℚ) + 1) / (times.length : ℚ)))
          = ((y :: ys).dedup.filter (fun u => u ≠ v0)).map
            (fun u => (u, (((1 : ℕ) : ℚ) + (countLt (y :: ys) u : ℚ) + 1)
              / (times.length : ℚ))) := by
        apply List.map_congr_left
        intro u hu
        have hu1 : u ∈ y :: ys := List.mem_dedup.mp (List.mem_filter.mp hu).1
        have hu2 : u ≠ v0 := by simpa using (List.mem_filter.mp hu).2
        have hvu : v0 < u :=
          lt_of_le_of_ne (List.rel_of_sorted_cons hsorted u hu1) (Ne.symm hu2)
        have hcnt : countLt (v0 :: y :: ys) u = countLt (y :: ys) u + 1 := by
          rw [countLt_cons, if_pos hvu]
        rw [hcnt]
        refine congrArg (fun z => (u, z)) ?_
        push_cast
        ring
      rw [hA, hB]

theorem mem_of_getLast?_mem {α : Type} {l : List α} {a : α}
    (h : l.getLast? = some a) : a ∈ l := by
  obtain ⟨hne, rfl⟩ := List.mem_getLast?_eq_getLast (Option.mem_def.mpr h)
  exact List.getLast_mem hne

/-- Shape of the closed-form CDF point list built from a sorted non-empty
sequence `s` of `n` observations. -/
theorem cdfSpec_shape (s : List ℚ) (n : ℕ) (cdf : List (ℚ × ℚ))
    (hs : List.Sorted (· ≤ ·) s) (hne : s ≠ []) (hn : s.length = n)
    (hcdf : cdf = setLastPct ((s.dedup).map
      (fun v => (v, ((countLt s v : ℚ) + 1) / (n : ℚ)))) 1) :
    cdf ≠ [] ∧
    (cdf.map Prod.fst).Pairwise (· < ·) ∧
    (cdf.map Prod.snd).Chain' (· ≤ ·) ∧
    (∀ q, cdf.head? = some q → 0 < q.2) ∧
    (∀ q, cdf.getLast? = some q → q.2 = 1) ∧
    (∀ i q, i + 1 < cdf.length → cdf[i]? = some q →
      q.2 = ((countLt s q.1 : ℚ) + 1) / (n : ℚ)) := by
  subst hn
  have hnpos : (0 : ℚ) < (s.length : ℚ) := by
    exact_mod_cast List.length_pos.mpr hne
  have hDne : s.dedup ≠ [] := by
    intro he
    exact hne ((List.dedup_eq_nil _).mp he)
  have hDlt : (s.dedup).Pairwise (· < ·) :=
    (List.Pairwise.and (sorted_dedup hs) (List.nodup_dedup s)).imp
      (fun hab => lt_of_le_of_ne hab.1 hab.2)
  have hptsne : (s.dedup).map
      (fun v => (v, ((countLt s v : ℚ) + 1) / ((s.length : ℕ) : ℚ))) ≠ [] := by
    simpa using hDne
  have hcl : cdf.length = (s.dedup).length := by
    rw [hcdf, setLastPct_length, List.length_map]
  have hfst : cdf.map Prod.fst = s.dedup := by
    rw [hcdf, setLastPct_map_fst _ _ hptsne, List.map_map]
    exact (List.map_congr_left fun a _ => rfl).trans (List.map_id _)
  have hsnd : cdf.map Prod.snd
      = ((s.dedup).map (fun v => ((countLt s v : ℚ) + 1)
          / ((s.length : ℕ) : ℚ))).dropLast ++ [1] := by
    rw [hcdf, setLastPct_map_snd _ _ hptsne, List.map_map]
    congr 1
  have hPmem : ∀ x ∈ (s.dedup).map (fun v => ((countLt s v : ℚ) + 1)
      / ((s.length : ℕ) : ℚ)), 0 < x ∧ x ≤ 1 := by
    intro x hx
    obtain ⟨v, hv, rfl⟩ := List.mem_map.mp hx
    have hvs : v ∈ s := List.mem_dedup.mp hv
    constructor
    · exact div_pos (by positivity) hnpos
    · refine (div_le_one hnpos).mpr ?_
      have h2 : countLt s v + 1 ≤ s.length := countLt_lt_length s v hvs
      exact_mod_cast h2
  have hPlt : ((s.dedup).map (fun v => ((countLt s v : ℚ) + 1)
      / ((s.length : ℕ) : ℚ))).Pairwise (· < ·) := by
    rw [List.pairwise_map]
    refine hDlt.imp_of_mem ?_
    intro a b ha hb hab
    have has : a ∈ s := List.mem_dedup.mp ha
    apply div_lt_div_of_pos_right ?_ hnpos
    have h3 := countLt_strict s has hab
    exact_mod_cast Nat.succ_lt_succ h3
  refine ⟨?_, ?_, ?_, ?_, ?_, ?_⟩
  · intro he
    have := List.length_pos.mpr hDne
    rw [← hcl, he] at this
    simp at this
  · rw [hfst]
    exact hDlt
  · rw [hsnd, List.chain'_append]
    refine ⟨((hPlt.sublist (List.dropLast_sublist _)).imp le_of_lt).chain',
      List.chain'_singleton 1, ?_⟩
    intro x hx y hy
    have hy1 : (1 : ℚ) = y := by simpa using hy
    subst hy1
    have hx2 := (List.dropLast_sublist _).mem
      (mem_of_getLast?_mem (Option.mem_def.mp hx))
    exact (hPmem x hx2).2
  · intro q hq
    have hq2 : q.2 ∈ cdf.map Prod.snd :=
      List.mem_map_of_mem Prod.snd
        (List.mem_of_mem_head? (Option.mem_def.mpr hq))
    rw [hsnd] at hq2
    rcases List.mem_append.mp hq2 with hx | hx
    · exact (hPmem _ ((List.dropLast_sublist _).mem hx)).1
    · have h1 : q.2 = 1 := by simpa using hx
      rw [h1]
      norm_num
  · obtain ⟨q0, _, hlast⟩ := setLastPct_getLast? _ 1 hptsne
    intro q hq
    rw [hcdf, hlast] at hq
    exact (congrArg Prod.snd (Option.some.inj hq)).symm
  · intro i q hi hq
    have hi2 : i + 1 < ((s.dedup).map
        (fun v => (v, ((countLt s v : ℚ) + 1) / ((s.length : ℕ) : ℚ)))).length := by
      rw [List.length_map]
      rw [hcl] at hi
      exact hi
    rw [hcdf, setLastPct_getElem? _ _ _ hi2, List.getElem?_map] at hq
    rcases hD : (s.dedup)[i]? with _ | v
    · rw [hD] at hq
      simp at hq
    · rw [hD] at hq
      simp only [Option.map_some'] at hq
      cases Option.some.inj hq
      rfl

theorem buildCdf_shape (times : List ℚ) (h : times ≠ []) :
    buildCdf times ≠ [] ∧
    ((buildCdf times).map Prod.fst).Pairwise (· < ·) ∧
    ((buildCdf times).map Prod.snd).Chain' (· ≤ ·) ∧
    (∀ q, (buildCdf times).head? = some q → 0 < q.2) ∧
    (∀ q, (buildCdf times).getLast? = some q → q.2 = 1) ∧
    (∀ i q, i + 1 < (buildCdf times).length → (buildCdf times)[i]? = some q →
      q.2 = ((countLt (times.insertionSort (· ≤ ·)) q.1 : ℚ) + 1)
        / (times.length : ℚ)) := by
  have hsne : times.insertionSort (· ≤ ·) ≠ [] := by
    intro he
    have hp := List.perm_insertionSort (· ≤ ·) times
    rw [he] at hp
    exact h (List.Perm.nil_eq hp).symm
  exact cdfSpec_shape (times.insertionSort (· ≤ ·)) times.length (buildCdf times)
    (List.sorted_insertionSort (· ≤ ·) times) hsne
    (List.perm_insertionSort (· ≤ ·) times).length_eq
    (buildCdf_closed times h)

/-- C9: for every entity with at least one observation, the constructed
CDF curve is non-empty, has strictly increasing (hence pairwise distinct)
bucket values — at most one point per distinct bucket value — probability
values that are non-decreasing along the curve, a first probability
strictly greater than 0, and a final probability exactly 1. -/
theorem C9_cdf_shape (rows : List (NRow × Bool)) (client : String)
    (h : rows.filter (fun p => p.1.clientImpl == client) ≠ []) :
    clientCdf rows client ≠ [] ∧
    ((clientCdf rows client).map Prod.fst).Pairwise (· < ·) ∧
    ((clientCdf rows client).map Prod.snd).Chain' (· ≤ ·) ∧
    (∀ q, (clientCdf rows client).head? = some q → 0 < q.2) ∧
    (∀ q, (clientCdf rows client).getLast? = some q → q.2 = 1) := by
  have htimes : bucketTimes rows client ≠ [] := by
    unfold bucketTimes
    intro he
    exact h (List.map_eq_nil_iff.mp he)
  obtain ⟨h1, h2, h3, h4, h5, _⟩ := buildCdf_shape (bucketTimes rows client) htimes
  exact ⟨h1, h2, h3, h4, h5⟩

/-- C8 (amended): every emitted CDF point except the final one carries
probability `(countLt + 1) / totalCount`, where `countLt` is the number of
the entity's bucketed observations STRICTLY below the point's bucket value
— i.e. the one-based index of the bucket value's first occurrence in the
sorted sequence, not the less-or-equal cumulative count — and the final
emitted point's probability is exactly 1. -/
theorem C8_cdf_points (rows : List (NRow × Bool)) (client : String)
    (h : rows.filter (fun p => p.1.clientImpl == client) ≠ []) :
    (∀ i q, i + 1 < (clientCdf rows client).length →
      (clientCdf rows client)[i]? = some q →
      q.2 = ((countLt ((bucketTimes rows client).insertionSort (· ≤ ·)) q.1 : ℚ) + 1)
        / ((bucketTimes rows client).length : ℚ)) ∧
    (∀ q, (clientCdf rows client).getLast? = some q → q.2 = 1) := by
  have htimes : bucketTimes rows client ≠ [] := by
    unfold bucketTimes
    intro he
    exact h (List.map_eq_nil_iff.mp he)
  obtain ⟨_, _, _, _, h5, h6⟩ := buildCdf_shape (bucketTimes rows client) htimes
  exact ⟨h6, h5⟩

/-- Concrete observation rows used in the CDF witnesses: three "prysm"
observations with capped delays 100, 100 and 200 ms. -/
def cxRow (d : ℤ) : Row := ⟨1, 2, d, 0, "prysm", "US"⟩

def cxRaw3 : List (NRow × Bool) :=
  [(addDerived "mainnet" (cxRow 100), false),
   (addDerived "mainnet" (cxRow 100), false),
   (addDerived "mainnet" (cxRow 200), false)]

theorem bucketTimes_cx : bucketTimes cxRaw3 "prysm" = [100, 100, 200] := by
  unfold bucketTimes cxRaw3 cxRow addDerived capDiff
  norm_num [bucket50, roundQ]

theorem buildCdf_cx : buildCdf [(100 : ℚ), 100, 200] = [(100, 1/3), (200, 1)] := by
  have h1 : List.insertionSort (· ≤ ·) [(100 : ℚ), 100, 200] = [100, 100, 200] := by
    norm_num [List.insertionSort, List.orderedInsert]
  unfold buildCdf
  rw [show ([(100 : ℚ), 100, 200].length) = 3 from rfl, h1]
  rw [List.foldl_cons, List.foldl_cons, List.foldl_cons, List.foldl_nil]
  rw [show cdfStep 3 ⟨[], 0, none⟩ 100 = ⟨[(100, 1/3)], 1, some 100⟩ from by
    unfold cdfStep; norm_num; simp]
  rw [show cdfStep 3 ⟨[(100, 1/3)], 1, some 100⟩ 100
      = ⟨[(100, 1/3)], 2, some 100⟩ from by
    unfold cdfStep; norm_num]
  rw [show cdfStep 3 ⟨[(100, 1/3)], 2, some 100⟩ 200
      = ⟨[(100, 1/3), (200, 1)], 3, some 200⟩ from by
    unfold cdfStep; norm_num]

theorem C9_cdf_shape_witness :
    clientCdf cxRaw3 "prysm" ≠ [] ∧
    ((clientCdf cxRaw3 "prysm").map Prod.fst).Pairwise (· < ·) ∧
    ((clientCdf cxRaw3 "prysm").map Prod.snd).Chain' (· ≤ ·) ∧
    (∀ q, (clientCdf cxRaw3 "prysm").head? = some q → 0 < q.2) ∧
    (∀ q, (clientCdf cxRaw3 "prysm").getLast? = some q → q.2 = 1) :=
  C9_cdf_shape cxRaw3 "prysm" (by decide)

theorem C8_cdf_points_witness :
    (clientCdf cxRaw3 "prysm")[1]? = some (200, 1) ∧
    (clientCdf cxRaw3 "prysm").getLast? = some (200, 1) ∧
    ((200 : ℚ), (1 : ℚ)).2 = 1 := by
  have h := C8_cdf_points cxRaw3 "prysm" (by decide)
  have hcdf : clientCdf cxRaw3 "prysm" = [(100, 1/3), (200, 1)] := by
    unfold clientCdf
    rw [bucketTimes_cx, buildCdf_cx]
  refine ⟨by rw [hcdf]; rfl, by rw [hcdf]; rfl, ?_⟩
  exact h.2 (200, 1) (by rw [hcdf]; rfl)

/-- C8 counterexample.  For the concrete entity data with bucketed times
`[100, 100, 200]`, the emitted point at bucket 100 carries probability
1/3 — the one-based index of the FIRST occurrence of 100 — whereas the
claimed `cumulativeCount / totalCount` with `cumulativeCount` counting
observations less than or equal to 100 is 2/3: the claim fails on this
non-final point. -/
theorem C8_counterexample :
    clientCdf cxRaw3 "prysm" = [(100, 1/3), (200, 1)] ∧
    ((bucketTimes cxRaw3 "prysm").countP (fun x => decide (x ≤ 100)) : ℚ)
        / ((bucketTimes cxRaw3 "prysm").length : ℚ) = 2/3 ∧
    (1/3 : ℚ) ≠ 2/3 := by
  refine ⟨?_, ?_, by norm_num⟩
  · unfold clientCdf
    rw [bucketTimes_cx, buildCdf_cx]
  · rw [bucketTimes_cx]
    norm_num
